import Mathlib

set_option maxHeartbeats 1600000
set_option maxRecDepth 100000

/-!
Verification of the serial-validator core (`serial_utils.py` and `app.py`).

Modelling conventions:
* Python strings are modelled as `List Char`; `None`-able string parameters as
  `Option (List Char)`.
* Python `set` values are modelled as `Finset (List Char)`.
* `str.upper()` applies the locale-independent full Unicode uppercase
  mapping to each character independently and concatenates the results; that
  mapping is runtime data of the Python implementation, not code of this
  repository, so it enters the embedding as an explicit parameter
  `upper : Char → List Char`, with the properties the theorems need stated as
  hypotheses and a concrete fragment `modelUpper` used to instantiate them.
* Machine integers do not occur: all Python integers involved are small
  non-negative counts, modelled as `Nat`.
-/

/-- Substitution cost used by the Levenshtein recurrence: `0 if ca == cb else 1`
(the `replace_cost` summand in `_lev`). -/
def delta (x y : Char) : Nat := if x = y then 0 else 1

/-- Reference recursive Levenshtein distance.  The dynamic program in `_lev`
is proved equal to this function below. -/
def levRec : List Char → List Char → Nat
  | [], b => b.length
  | a, [] => a.length
  | x :: a, y :: b =>
    min (levRec a (y :: b) + 1) (min (levRec (x :: a) b + 1) (levRec a b + delta x y))
termination_by a b => a.length + b.length
decreasing_by all_goals simp <;> omega

theorem levRec_nil_left (b : List Char) : levRec [] b = b.length := by
  simp [levRec]

theorem levRec_nil_right (a : List Char) : levRec a [] = a.length := by
  cases a <;> simp [levRec]

theorem levRec_cons_cons (x y : Char) (a b : List Char) :
    levRec (x :: a) (y :: b) =
      min (levRec a (y :: b) + 1) (min (levRec (x :: a) b + 1) (levRec a b + delta x y)) := by
  simp [levRec]

theorem levRec_self (a : List Char) : levRec a a = 0 := by
  induction a with
  | nil => simp [levRec]
  | cons x a ih =>
    have h := levRec_cons_cons x x a a
    simp [delta] at h
    omega

theorem delta_le_one (x y : Char) : delta x y ≤ 1 := by
  unfold delta; split <;> omega

theorem delta_self (x : Char) : delta x x = 0 := by simp [delta]

/-- Appending one character to the second argument changes the distance by at
most one. -/
theorem levRec_cons_right_le (a : List Char) (y : Char) (b : List Char) :
    levRec a (y :: b) ≤ levRec a b + 1 := by
  cases a with
  | nil => simp [levRec_nil_left]
  | cons x a =>
    have h := levRec_cons_cons x y a b
    omega

/-- Appending one character to the first argument changes the distance by at
most one. -/
theorem levRec_cons_left_le (x : Char) (a b : List Char) :
    levRec (x :: a) b ≤ levRec a b + 1 := by
  cases b with
  | nil => simp [levRec_nil_right]
  | cons y b =>
    have h := levRec_cons_cons x y a b
    omega

/-- Dropping the head of the first argument changes the distance by at most
one. -/
theorem levRec_tail_le (x : Char) (a : List Char) :
    ∀ c : List Char, levRec a c ≤ levRec (x :: a) c + 1 := by
  intro c
  induction c with
  | nil =>
    simp [levRec_nil_right]; omega
  | cons y c ih =>
    have h := levRec_cons_cons x y a c
    have h1 : levRec a (y :: c) ≤ levRec a c + 1 := levRec_cons_right_le a y c
    omega

/-- Replacing the head of the first argument changes the distance by at most
one. -/
theorem levRec_subst_le (x y : Char) (a : List Char) :
    ∀ c : List Char, levRec (x :: a) c ≤ levRec (y :: a) c + 1 := by
  intro c
  induction c with
  | nil => simp [levRec_nil_right]
  | cons z c ih =>
    have hx := levRec_cons_cons x z a c
    have hy := levRec_cons_cons y z a c
    have d1 := delta_le_one x z
    have d2 := delta_le_one y z
    omega

/-- One single-character edit: insertion, deletion or substitution at an
arbitrary position (positions reached through `skip`). -/
inductive EditStep : List Char → List Char → Prop
  | insert_head (x : Char) (l : List Char) : EditStep l (x :: l)
  | delete_head (x : Char) (l : List Char) : EditStep (x :: l) l
  | subst_head (x y : Char) (l : List Char) : EditStep (x :: l) (y :: l)
  | skip (x : Char) {l l' : List Char} : EditStep l l' → EditStep (x :: l) (x :: l')

/-- Relation `Chain a b n`: `a` can be transformed into `b` by `n` single-character
edits. -/
inductive Chain : List Char → List Char → Nat → Prop
  | refl (a : List Char) : Chain a a 0
  | step {a b c : List Char} {n : Nat} : EditStep a b → Chain b c n → Chain a c (n + 1)

theorem EditStep.length_le {a b : List Char} (h : EditStep a b) :
    a.length ≤ b.length + 1 ∧ b.length ≤ a.length + 1 := by
  induction h with
  | insert_head x l => simp; omega
  | delete_head x l => simp; omega
  | subst_head x y l => simp
  | skip x h ih => simp; omega

/-- An edit step moves the distance to any third string by at most one. -/
theorem levRec_le_of_editStep {a a' : List Char} (h : EditStep a a') :
    ∀ c : List Char, levRec a c ≤ levRec a' c + 1 := by
  induction h with
  | insert_head x l =>
    intro c
    exact levRec_tail_le x l c
  | delete_head x l =>
    intro c
    exact levRec_cons_left_le x l c
  | subst_head x y l =>
    intro c
    exact levRec_subst_le x y l c
  | skip z h ih =>
    rename_i l l'
    intro c
    induction c with
    | nil =>
      have := h.length_le
      simp [levRec_nil_right]
      omega
    | cons y c ihc =>
      have hl := levRec_cons_cons z y l c
      have hr := levRec_cons_cons z y l' c
      have h1 := ih (y :: c)
      have h2 := ih c
      omega

theorem levRec_le_of_chain {a b : List Char} {n : Nat} (h : Chain a b n) :
    levRec a b ≤ n := by
  induction h with
  | refl a => simp [levRec_self]
  | step hs hc ih =>
    rename_i a b c n
    have := levRec_le_of_editStep hs c
    omega

theorem chain_trans {a b c : List Char} {m n : Nat}
    (h1 : Chain a b m) (h2 : Chain b c n) : Chain a c (m + n) := by
  induction h1 with
  | refl a => simpa using h2
  | step hs hc ih =>
    rename_i a' b' _ m'
    have := Chain.step hs (ih h2)
    have hmn : m' + n + 1 = m' + 1 + n := by omega
    rwa [← hmn]

theorem chain_cons {a b : List Char} {n : Nat} (x : Char) (h : Chain a b n) :
    Chain (x :: a) (x :: b) n := by
  induction h with
  | refl a => exact Chain.refl _
  | step hs hc ih => exact Chain.step (EditStep.skip x hs) ih

theorem chain_single {a b : List Char} (h : EditStep a b) : Chain a b 1 :=
  Chain.step h (Chain.refl b)

theorem chain_build_nil (b : List Char) : Chain [] b b.length := by
  induction b with
  | nil => exact Chain.refl []
  | cons y b ih =>
    have h1 : Chain [] [y] 1 := chain_single (EditStep.insert_head y [])
    have h2 : Chain [y] (y :: b) b.length := chain_cons y ih
    have := chain_trans h1 h2
    simpa [Nat.add_comm] using this

theorem chain_drop_nil (a : List Char) : Chain a [] a.length := by
  induction a with
  | nil => exact Chain.refl []
  | cons x a ih =>
    have h1 : Chain (x :: a) a 1 := chain_single (EditStep.delete_head x a)
    have := chain_trans h1 ih
    simpa [Nat.add_comm] using this

/-- There is an edit chain realising the recursive Levenshtein distance. -/
theorem chain_of_levRec : ∀ a b : List Char, Chain a b (levRec a b)
  | [], b => by rw [levRec_nil_left]; exact chain_build_nil b
  | x :: a, [] => by rw [levRec_nil_right]; exact chain_drop_nil (x :: a)
  | x :: a, y :: b => by
    rw [levRec_cons_cons]
    rcases Nat.lt_trichotomy (levRec a (y :: b) + 1)
        (min (levRec (x :: a) b + 1) (levRec a b + delta x y)) with h | h | h
    · rw [min_eq_left (Nat.le_of_lt h)]
      exact Chain.step (EditStep.delete_head x a) (chain_of_levRec a (y :: b))
    · rw [min_eq_left (Nat.le_of_eq h)]
      exact Chain.step (EditStep.delete_head x a) (chain_of_levRec a (y :: b))
    · rw [min_eq_right (Nat.le_of_lt h)]
      rcases Nat.le_total (levRec (x :: a) b + 1) (levRec a b + delta x y) with h2 | h2
      · rw [min_eq_left h2]
        have hc : Chain (x :: a) b (levRec (x :: a) b) := chain_of_levRec (x :: a) b
        have hlast : Chain b (y :: b) 1 := chain_single (EditStep.insert_head y b)
        exact chain_trans hc hlast
      · rw [min_eq_right h2]
        have hc : Chain (x :: a) (x :: b) (levRec a b) := chain_cons x (chain_of_levRec a b)
        by_cases hxy : x = y
        · subst hxy
          simpa [delta_self] using hc
        · have hlast : Chain (x :: b) (y :: b) 1 := chain_single (EditStep.subst_head x y b)
          have := chain_trans hc hlast
          simpa [delta, hxy] using this
termination_by a b => a.length + b.length
decreasing_by all_goals simp <;> omega

theorem EditStep.symm {a b : List Char} (h : EditStep a b) : EditStep b a := by
  induction h with
  | insert_head x l => exact EditStep.delete_head x l
  | delete_head x l => exact EditStep.insert_head x l
  | subst_head x y l => exact EditStep.subst_head y x l
  | skip x h ih => exact EditStep.skip x ih

theorem chain_symm {a b : List Char} {n : Nat} (h : Chain a b n) : Chain b a n := by
  induction h with
  | refl a => exact Chain.refl a
  | step hs hc ih =>
    have h1 := chain_trans ih (chain_single hs.symm)
    simpa using h1

theorem EditStep.append_right {a b : List Char} (w : List Char) (h : EditStep a b) :
    EditStep (a ++ w) (b ++ w) := by
  induction h with
  | insert_head x l => exact EditStep.insert_head x (l ++ w)
  | delete_head x l => exact EditStep.delete_head x (l ++ w)
  | subst_head x y l => exact EditStep.subst_head x y (l ++ w)
  | skip x h ih => exact EditStep.skip x ih

theorem EditStep.insert_last (x : Char) (l : List Char) : EditStep l (l ++ [x]) := by
  induction l with
  | nil => exact EditStep.insert_head x []
  | cons c l ih => exact EditStep.skip c ih

theorem EditStep.delete_last (x : Char) (l : List Char) : EditStep (l ++ [x]) l := by
  induction l with
  | nil => exact EditStep.delete_head x []
  | cons c l ih => exact EditStep.skip c ih

theorem EditStep.subst_last (x y : Char) (l : List Char) :
    EditStep (l ++ [x]) (l ++ [y]) := by
  induction l with
  | nil => exact EditStep.subst_head x y []
  | cons c l ih => exact EditStep.skip c ih

theorem EditStep.reverse {a b : List Char} (h : EditStep a b) :
    EditStep a.reverse b.reverse := by
  induction h with
  | insert_head x l => simpa using EditStep.insert_last x l.reverse
  | delete_head x l => simpa using EditStep.delete_last x l.reverse
  | subst_head x y l => simpa using EditStep.subst_last x y l.reverse
  | skip x h ih => simpa using EditStep.append_right [x] ih

theorem chain_reverse {a b : List Char} {n : Nat} (h : Chain a b n) :
    Chain a.reverse b.reverse n := by
  induction h with
  | refl a => exact Chain.refl a.reverse
  | step hs hc ih => exact Chain.step hs.reverse ih

theorem levRec_symm (a b : List Char) : levRec a b = levRec b a :=
  Nat.le_antisymm
    (levRec_le_of_chain (chain_symm (chain_of_levRec b a)))
    (levRec_le_of_chain (chain_symm (chain_of_levRec a b)))

theorem levRec_reverse (a b : List Char) : levRec a.reverse b.reverse = levRec a b := by
  apply Nat.le_antisymm
  · exact levRec_le_of_chain (chain_reverse (chain_of_levRec a b))
  · have h := chain_reverse (chain_of_levRec a.reverse b.reverse)
    simp only [List.reverse_reverse] at h
    exact levRec_le_of_chain h

theorem levRec_triangle (a b c : List Char) :
    levRec a b ≤ levRec a c + levRec c b :=
  levRec_le_of_chain (chain_trans (chain_of_levRec a c) (chain_of_levRec c b))

theorem levRec_eq_zero_iff (a b : List Char) : levRec a b = 0 ↔ a = b := by
  constructor
  · intro h
    have hc := chain_of_levRec a b
    rw [h] at hc
    cases hc with
    | refl _ => rfl
  · intro h
    subst h
    exact levRec_self a

/-- One pass of the inner loop of `_lev`: given the character `ca` of the
current row, the remaining column characters of `b`, the tail of the previous
row starting at the diagonal entry, and the already-computed value `cur` of the
current row, produce the rest of the current row
(`curr.append(min(insert_cost, delete_cost, replace_cost))`). -/
def lev_row (ca : Char) : List Char → List Nat → Nat → List Nat
  | [], _, cur => [cur]
  | cb :: bs, p0 :: p1 :: ps, cur =>
    cur :: lev_row ca bs (p1 :: ps) (min (min (cur + 1) (p1 + 1)) (p0 + delta ca cb))
  | _ :: _, _, cur => [cur]

/-- The outer loop of `_lev`: `for i, ca in enumerate(a, start=1)` with
`prev = curr` at the end of each iteration; `i` seeds `curr = [i]`. -/
def lev_loop (b : List Char) : List Char → List Nat → Nat → List Nat
  | [], prev, _ => prev
  | ca :: rest, prev, i => lev_loop b rest (lev_row ca b prev i) (i + 1)

/-- Dynamic-programming embedding of `_lev` from `serial_utils.py`: early
returns for equal and empty inputs, swap so that the row string is the shorter
one, then the rolling-row loop, answering `prev[-1]`. -/
def _lev (a b : List Char) : Nat :=
  if a = b then 0
  else if a = [] then b.length
  else if b = [] then a.length
  else
    let p := if b.length < a.length then (b, a) else (a, b)
    (lev_loop p.2 p.1 (List.range (p.2.length + 1)) 1).getLastD 0

/-- The intended contents of a DP row: entry `j` is the distance between the
reversed processed prefix `u` of the row string and the reversed processed
prefix (of length `j`) of the column string. -/
def rowOf (u v : List Char) : List Char → List Nat
  | [] => [levRec u v]
  | cb :: bs => levRec u v :: rowOf u (cb :: v) bs

theorem rowOf_eq_cons (u v : List Char) (bs : List Char) :
    ∃ t, rowOf u v bs = levRec u v :: t := by
  cases bs <;> simp [rowOf]

theorem rowOf_nil_left (bs : List Char) :
    ∀ v : List Char, rowOf [] v bs = List.range' v.length (bs.length + 1) := by
  induction bs with
  | nil =>
    intro v
    simp [rowOf, levRec_nil_left]
  | cons cb bs ih =>
    intro v
    have h := ih (cb :: v)
    simp only [List.length_cons] at h
    simp [rowOf, h, List.range'_succ, levRec_nil_left]

theorem rowOf_getLastD (bs : List Char) :
    ∀ v : List Char, (rowOf u v bs).getLastD 0 = levRec u (bs.reverse ++ v) := by
  induction bs with
  | nil => intro v; simp [rowOf]
  | cons cb bs ih =>
    intro v
    obtain ⟨t, ht⟩ := rowOf_eq_cons u (cb :: v) bs
    calc (rowOf u v (cb :: bs)).getLastD 0
        = (rowOf u (cb :: v) bs).getLastD (levRec u v) := by
          show (levRec u v :: rowOf u (cb :: v) bs).getLastD 0 = _
          rw [List.getLastD_cons]
      _ = (rowOf u (cb :: v) bs).getLastD 0 := by
          rw [ht, List.getLastD_cons, List.getLastD_cons]
      _ = levRec u (bs.reverse ++ cb :: v) := ih (cb :: v)
      _ = levRec u ((cb :: bs).reverse ++ v) := by
          simp

/-- The inner loop advances the DP invariant by one row character. -/
theorem lev_row_eq (ca : Char) (u : List Char) (bs : List Char) :
    ∀ v : List Char, lev_row ca bs (rowOf u v bs) (levRec (ca :: u) v) = rowOf (ca :: u) v bs := by
  induction bs with
  | nil => intro v; simp [rowOf, lev_row]
  | cons cb bs ih =>
    intro v
    obtain ⟨t, ht⟩ := rowOf_eq_cons u (cb :: v) bs
    have hnext :
        min (min (levRec (ca :: u) v + 1) (levRec u (cb :: v) + 1))
            (levRec u v + delta ca cb) = levRec (ca :: u) (cb :: v) := by
      have h := levRec_cons_cons ca cb u v
      omega
    calc lev_row ca (cb :: bs) (rowOf u v (cb :: bs)) (levRec (ca :: u) v)
        = levRec (ca :: u) v ::
            lev_row ca bs (rowOf u (cb :: v) bs) (levRec (ca :: u) (cb :: v)) := by
          simp [rowOf, ht, lev_row, hnext]
      _ = levRec (ca :: u) v :: rowOf (ca :: u) (cb :: v) bs := by
          rw [ih (cb :: v)]
      _ = rowOf (ca :: u) v (cb :: bs) := by
          simp [rowOf]

/-- The outer loop maintains the DP invariant over the whole row string. -/
theorem lev_loop_eq (b : List Char) (rest : List Char) :
    ∀ u : List Char, lev_loop b rest (rowOf u [] b) (u.length + 1) =
      rowOf (rest.reverse ++ u) [] b := by
  induction rest with
  | nil => intro u; simp [lev_loop]
  | cons ca rest ih =>
    intro u
    have hseed : levRec (ca :: u) [] = u.length + 1 := by
      simp [levRec_nil_right]
    calc lev_loop b (ca :: rest) (rowOf u [] b) (u.length + 1)
        = lev_loop b rest (lev_row ca b (rowOf u [] b) (u.length + 1)) (u.length + 2) := by
          simp [lev_loop]
      _ = lev_loop b rest (rowOf (ca :: u) [] b) ((ca :: u).length + 1) := by
          rw [← hseed, lev_row_eq ca u b []]
          simp
      _ = rowOf (rest.reverse ++ (ca :: u)) [] b := ih (ca :: u)
      _ = rowOf ((ca :: rest).reverse ++ u) [] b := by
          simp

/-- The rolling-row dynamic program computes the recursive Levenshtein
distance. -/
theorem lev_dp_eq (a b : List Char) :
    (lev_loop b a (List.range (b.length + 1)) 1).getLastD 0 = levRec a b := by
  have h0 : List.range (b.length + 1) = rowOf [] [] b := by
    rw [rowOf_nil_left b [], List.range_eq_range']
    simp
  rw [h0]
  have h1 := lev_loop_eq b a []
  simp only [List.length_nil, List.append_nil] at h1
  rw [h1]
  have h2 := rowOf_getLastD (u := a.reverse) b []
  simp only [List.append_nil] at h2
  rw [h2, levRec_reverse]

/-- Theorem: `_lev` agrees with the recursive Levenshtein distance. -/
theorem _lev_eq_levRec (a b : List Char) : _lev a b = levRec a b := by
  unfold _lev
  by_cases hab : a = b
  · simp [hab, levRec_self]
  · simp only [hab, if_false]
    by_cases ha : a = []
    · simp [ha, levRec_nil_left]
    · simp only [ha, if_false]
      by_cases hb : b = []
      · simp [hb, levRec_nil_right]
      · simp only [hb, if_false]
        by_cases hlen : b.length < a.length
        · simp only [hlen, if_true]
          rw [lev_dp_eq b a, levRec_symm]
        · simp only [hlen, if_false]
          rw [lev_dp_eq a b]

/-- The five boolean toggles of `normalize_token` (keyword-only parameters
`do_upper`, `strip_spaces`, `strip_dashes`, `strip_dots`, `strip_slashes`,
all defaulting to `True`). -/
structure NormCfg where
  do_upper : Bool := true
  strip_spaces : Bool := true
  strip_dashes : Bool := true
  strip_dots : Bool := true
  strip_slashes : Bool := true

/-- Step `s2 = s2.upper()` when `do_upper`.  CPython's `str.upper()` maps
each character through its full Unicode uppercase mapping (possibly several
characters, e.g. `'ß'` to `"SS"`) and concatenates the results; the mapping
itself is a parameter of the embedding. -/
def upperStep (upper : Char → List Char) (cfg : NormCfg) (s : List Char) : List Char :=
  if cfg.do_upper then s.flatMap upper else s

/-- One conditional `s2 = s2.replace(ch, "")` step of `normalize_token`:
removing every occurrence of a character is filtering it out. -/
def stripStep (t : Bool) (p : Char → Bool) (s : List Char) : List Char :=
  if t then s.filter p else s

/-- Embedding of `normalize_token` from `serial_utils.py`.  `None` is mapped
to the empty string; the steps are applied in the source order: upper-case
fold, then removal of `' '`, `'-'`, `'.'`, `'/'` and `'\\'`. -/
def normalize_token (upper : Char → List Char) (cfg : NormCfg)
    (s : Option (List Char)) : List Char :=
  match s with
  | none => []
  | some s0 =>
    stripStep cfg.strip_slashes (fun c => c != '\\')
      (stripStep cfg.strip_slashes (fun c => c != '/')
        (stripStep cfg.strip_dots (fun c => c != '.')
          (stripStep cfg.strip_dashes (fun c => c != '-')
            (stripStep cfg.strip_spaces (fun c => c != ' ')
              (upperStep upper cfg s0)))))

theorem char_toNat_ofNat_of_lt {n : Nat} (h : n < 55296) : (Char.ofNat n).toNat = n := by
  have hv : n.isValidChar := Or.inl h
  rw [Char.ofNat, dif_pos hv]
  simp [Char.ofNatAux, Char.toNat, UInt32.toNat]

theorem char_toNat_inj {c d : Char} (h : c.toNat = d.toNat) : c = d :=
  Char.ext (UInt32.toNat.inj h)

theorem toUpper_of_lower {c : Char} (h : 97 ≤ c.toNat ∧ c.toNat ≤ 122) :
    (Char.toUpper c).toNat = c.toNat - 32 := by
  unfold Char.toUpper
  rw [if_pos ⟨h.1, h.2⟩]
  exact char_toNat_ofNat_of_lt (by omega)

theorem toUpper_of_not_lower {c : Char} (h : ¬(97 ≤ c.toNat ∧ c.toNat ≤ 122)) :
    Char.toUpper c = c := by
  unfold Char.toUpper
  rw [if_neg (by exact fun hc => h ⟨hc.1, hc.2⟩)]

theorem toUpper_toUpper (c : Char) :
    Char.toUpper (Char.toUpper c) = Char.toUpper c := by
  by_cases h : 97 ≤ c.toNat ∧ c.toNat ≤ 122
  · have h1 := toUpper_of_lower h
    exact toUpper_of_not_lower (by omega)
  · rw [toUpper_of_not_lower h, toUpper_of_not_lower h]

/-- For a character that is neither an upper-case nor a lower-case ASCII
letter, `toUpper c = x` holds exactly when `c = x`. -/
theorem toUpper_eq_iff {x : Char} (h1 : ¬(65 ≤ x.toNat ∧ x.toNat ≤ 90))
    (h2 : ¬(97 ≤ x.toNat ∧ x.toNat ≤ 122)) (c : Char) :
    Char.toUpper c = x ↔ c = x := by
  by_cases hc : 97 ≤ c.toNat ∧ c.toNat ≤ 122
  · have hu := toUpper_of_lower hc
    constructor
    · intro h
      rw [h] at hu
      omega
    · intro h
      subst h
      omega
  · rw [toUpper_of_not_lower hc]

theorem stripStep_eq_filter (t : Bool) (p : Char → Bool) (s : List Char) :
    stripStep t p s = s.filter (fun c => !t || p c) := by
  cases t <;> simp [stripStep]

/-- The conjunction of all enabled character-removal conditions of
`normalize_token`. -/
def keep (cfg : NormCfg) (c : Char) : Bool :=
  (!cfg.strip_spaces || c != ' ') && (!cfg.strip_dashes || c != '-') &&
    (!cfg.strip_dots || c != '.') && (!cfg.strip_slashes || c != '/') &&
    (!cfg.strip_slashes || c != '\\')

/-- Unfolding: `normalize_token` on a present string is the case-fold step followed by
one filter with the conjunction of the enabled removal conditions. -/
theorem normalize_some_eq (upper : Char → List Char) (cfg : NormCfg) (s : List Char) :
    normalize_token upper cfg (some s) = (upperStep upper cfg s).filter (keep cfg) := by
  simp only [normalize_token, stripStep_eq_filter, List.filter_filter]
  apply List.filter_congr
  intro c _
  simp only [keep]
  cases cfg.strip_spaces <;> cases cfg.strip_dashes <;> cases cfg.strip_dots <;>
    cases cfg.strip_slashes <;>
      simp [Bool.and_comm, Bool.and_left_comm, Bool.and_assoc]

theorem toUpper_beq (x : Char) (h1 : ¬(65 ≤ x.toNat ∧ x.toNat ≤ 90))
    (h2 : ¬(97 ≤ x.toNat ∧ x.toNat ≤ 122)) (c : Char) :
    (Char.toUpper c == x) = (c == x) := by
  have h := toUpper_eq_iff h1 h2 c
  by_cases hc : c = x
  · subst hc
    have hx : Char.toUpper c = c := h.mpr rfl
    simp [hx]
  · have hu : Char.toUpper c ≠ x := fun hh => hc (h.mp hh)
    rw [beq_eq_false_iff_ne.mpr hu, beq_eq_false_iff_ne.mpr hc]

theorem flatMap_fix (upper : Char → List Char) (l : List Char)
    (h : ∀ d ∈ l, upper d = [d]) : l.flatMap upper = l := by
  induction l with
  | nil => simp
  | cons x l ih =>
    have hx := h x (List.mem_cons_self x l)
    have ht := ih (fun d hd => h d (List.mem_cons_of_mem x hd))
    simp [hx, ht]

/-- Idempotence of `normalize_token`, given the Unicode case-stability of the
uppercase mapping: every character the mapping outputs is mapped to itself
(the outputs of the full Unicode uppercase mapping are uppercase or uncased
characters, which is what makes `str.upper()` itself idempotent). -/
theorem normalize_token_idem_aux (upper : Char → List Char)
    (hfix : ∀ c d, d ∈ upper c → upper d = [d]) (cfg : NormCfg) (s : List Char) :
    normalize_token upper cfg (some (normalize_token upper cfg (some s))) =
      normalize_token upper cfg (some s) := by
  rw [normalize_some_eq, normalize_some_eq]
  unfold upperStep
  cases hdu : cfg.do_upper with
  | false =>
    simp only [Bool.false_eq_true, if_false, List.filter_filter]
    apply List.filter_congr
    intro c _
    simp
  | true =>
    simp only [if_true]
    have hfix2 : ∀ d ∈ (s.flatMap upper).filter (keep cfg), upper d = [d] := by
      intro d hdm
      have h2 : d ∈ s.flatMap upper := List.mem_of_mem_filter hdm
      obtain ⟨c, _, hdc⟩ := List.mem_flatMap.mp h2
      exact hfix c d hdc
    rw [flatMap_fix upper _ hfix2, List.filter_filter]
    apply List.filter_congr
    intro c _
    simp

theorem normalize_token_some_nil (upper : Char → List Char) (cfg : NormCfg) :
    normalize_token upper cfg (some []) = [] := by
  rw [normalize_some_eq]
  unfold upperStep
  cases cfg.do_upper <;> simp

/-- The five characters that the strip steps can remove. -/
def isStripChar (c : Char) : Bool :=
  c == ' ' || c == '-' || c == '.' || c == '/' || c == '\\'

theorem keep_of_not_strip (cfg : NormCfg) (c : Char) (h : isStripChar c = false) :
    keep cfg c = true := by
  simp only [isStripChar, Bool.or_eq_false_iff, beq_eq_false_iff_ne] at h
  simp only [keep, Bool.and_eq_true, Bool.or_eq_true, bne_iff_ne, ne_eq]
  tauto

theorem nonascii_not_strip (c : Char) (h : 127 < c.toNat) : isStripChar c = false := by
  have h1 : c ≠ ' ' := by intro e; rw [e] at h; exact absurd h (by decide)
  have h2 : c ≠ '-' := by intro e; rw [e] at h; exact absurd h (by decide)
  have h3 : c ≠ '.' := by intro e; rw [e] at h; exact absurd h (by decide)
  have h4 : c ≠ '/' := by intro e; rw [e] at h; exact absurd h (by decide)
  have h5 : c ≠ '\\' := by intro e; rw [e] at h; exact absurd h (by decide)
  simp [isStripChar, h1, h2, h3, h4, h5]

/-- Characters outside the ASCII range are never removed, only case-folded:
every character of the case-folded image of a non-ASCII input character
(the character itself when `do_upper` is off) survives normalization.  The
hypothesis says the uppercase mapping preserves membership in the stripped
five-character class, which holds of the Unicode mapping: the separators map
to themselves and are never produced from other characters. -/
theorem normalize_token_nonascii (upper : Char → List Char)
    (hsep : ∀ c d, d ∈ upper c → isStripChar d = isStripChar c)
    (cfg : NormCfg) (s : List Char) (c : Char) (hc : c ∈ s) (hna : 127 < c.toNat) :
    ∀ d ∈ (if cfg.do_upper = true then upper c else [c]),
      d ∈ normalize_token upper cfg (some s) := by
  intro d hd
  rw [normalize_some_eq]
  apply List.mem_filter.mpr
  cases hdu : cfg.do_upper with
  | false =>
    rw [hdu] at hd
    simp at hd
    rw [hd]
    constructor
    · unfold upperStep
      rw [hdu]
      simpa using hc
    · exact keep_of_not_strip cfg c (nonascii_not_strip c hna)
  | true =>
    rw [hdu] at hd
    simp at hd
    constructor
    · unfold upperStep
      rw [hdu]
      simp only [if_true]
      exact List.mem_flatMap.mpr ⟨c, hc, hd⟩
    · have hsc := hsep c d hd
      rw [nonascii_not_strip c hna] at hsc
      exact keep_of_not_strip cfg d hsc

/-- A concrete fragment of the Unicode uppercase mapping behind `str.upper`:
ASCII case folding plus two representative non-ASCII mappings,
`'é' → "É"` and the expanding `'ß' → "SS"`; every other character maps to
its ASCII case fold. -/
def modelUpper (c : Char) : List Char :=
  if c = 'é' then ['É']
  else if c = 'ß' then ['S', 'S']
  else [Char.toUpper c]

theorem modelUpper_fix (c d : Char) (hd : d ∈ modelUpper c) : modelUpper d = [d] := by
  unfold modelUpper at hd ⊢
  by_cases h1 : c = 'é'
  · simp [h1] at hd
    subst hd
    decide
  · by_cases h2 : c = 'ß'
    · simp [h1, h2] at hd
      subst hd
      decide
    · simp [h1, h2] at hd
      subst hd
      have hne1 : Char.toUpper c ≠ 'é' :=
        fun e => h1 ((toUpper_eq_iff (by decide) (by decide) c).mp e)
      have hne2 : Char.toUpper c ≠ 'ß' :=
        fun e => h2 ((toUpper_eq_iff (by decide) (by decide) c).mp e)
      simp [hne1, hne2, toUpper_toUpper]

theorem modelUpper_sep (c d : Char) (hd : d ∈ modelUpper c) :
    isStripChar d = isStripChar c := by
  unfold modelUpper at hd
  by_cases h1 : c = 'é'
  · simp [h1] at hd
    subst hd
    rw [h1]
    decide
  · by_cases h2 : c = 'ß'
    · simp [h1, h2] at hd
      subst hd
      rw [h2]
      decide
    · simp [h1, h2] at hd
      subst hd
      unfold isStripChar
      rw [toUpper_beq ' ' (by decide) (by decide) c, toUpper_beq '-' (by decide) (by decide) c,
        toUpper_beq '.' (by decide) (by decide) c, toUpper_beq '/' (by decide) (by decide) c,
        toUpper_beq '\\' (by decide) (by decide) c]

/-- The sort key of `fuzzy_match_candidates` (`out.sort(key=lambda x: x[1])`):
compare scored candidates by distance. -/
def leDist (x y : List Char × Nat) : Prop := x.2 ≤ y.2

instance : DecidableRel leDist := fun x y => inferInstanceAs (Decidable (x.2 ≤ y.2))

instance : IsTotal (List Char × Nat) leDist := ⟨fun x y => Nat.le_total x.2 y.2⟩

instance : IsTrans (List Char × Nat) leDist := ⟨fun _ _ _ h1 h2 => Nat.le_trans h1 h2⟩

/-- Assignment `tgt = target or ""`: `None` (and the empty string itself) becomes the
empty string. -/
def orEmpty (target : Option (List Char)) : List Char :=
  match target with
  | none => []
  | some t => t

/-- The `out` list built by the loop of `fuzzy_match_candidates`: each
candidate scored by `_lev`, kept when the distance is at most
`max_distance`, in candidate iteration order. -/
def fuzzy_out (tgt : List Char) (candidates : List (List Char)) (max_distance : Nat) :
    List (List Char × Nat) :=
  (candidates.map (fun c => (c, _lev tgt c))).filter (fun p => decide (p.2 ≤ max_distance))

/-- Sorting `out.sort(key=lambda x: x[1])`: Python's `list.sort` is stable, modelled
by insertion sort on the distance key. -/
def fuzzy_sorted (tgt : List Char) (candidates : List (List Char)) (max_distance : Nat) :
    List (List Char × Nat) :=
  (fuzzy_out tgt candidates max_distance).insertionSort leDist

/-- Embedding of `fuzzy_match_candidates` from `serial_utils.py`:
score, filter by `max_distance`, stable-sort by distance, return the first
`top_k` entries. -/
def fuzzy_match_candidates (target : Option (List Char)) (candidates : List (List Char))
    (max_distance : Nat) (top_k : Nat) : List (List Char × Nat) :=
  (fuzzy_sorted (orEmpty target) candidates max_distance).take top_k

theorem filter_orderedInsert_eq (d : Nat) (a : List Char × Nat)
    (s : List (List Char × Nat)) :
    (s.orderedInsert leDist a).filter (fun p => p.2 == d) =
      if a.2 = d then a :: s.filter (fun p => p.2 == d)
      else s.filter (fun p => p.2 == d) := by
  induction s with
  | nil =>
    by_cases h : a.2 = d <;> simp [List.orderedInsert, List.filter_cons, h]
  | cons b s ih =>
    by_cases hab : leDist a b
    · rw [List.orderedInsert_of_le leDist s hab]
      by_cases h : a.2 = d <;> simp [List.filter_cons, h]
    · have hlt : b.2 < a.2 := by
        have := Nat.lt_of_not_le (fun hh => hab hh)
        exact this
      simp only [List.orderedInsert, if_neg hab]
      rw [List.filter_cons]
      by_cases hbd : b.2 = d
      · have had : ¬ a.2 = d := by omega
        simp [hbd, ih, had, List.filter_cons]
      · by_cases had : a.2 = d <;> simp [hbd, ih, had, List.filter_cons]

/-- Stability of the modelled sort: among entries with any fixed distance `d`,
sorting preserves the original relative order. -/
theorem filter_insertionSort_eq (d : Nat) (l : List (List Char × Nat)) :
    (l.insertionSort leDist).filter (fun p => p.2 == d) =
      l.filter (fun p => p.2 == d) := by
  induction l with
  | nil => simp
  | cons a l ih =>
    show ((l.insertionSort leDist).orderedInsert leDist a).filter (fun p => p.2 == d) = _
    rw [filter_orderedInsert_eq, ih, List.filter_cons]
    by_cases h : a.2 = d <;> simp [h]

/-- Set `encontrados = sorted(expected_set.intersection(found_set))`, as a set. -/
def encontrados (E F : Finset (List Char)) : Finset (List Char) := E ∩ F

/-- Set `faltantes = sorted(expected_set.difference(found_set))`, as a set. -/
def faltantes (E F : Finset (List Char)) : Finset (List Char) := E \ F

/-- Set `extras_doc = sorted(found_set.difference(expected_set))`, as a set. -/
def extras_doc (E F : Finset (List Char)) : Finset (List Char) := F \ E

/-- Set `expected_set` of `app.py`: normalize every raw Excel value, keep results
of length at least `min_len`, drop empty strings, deduplicate into a set. -/
def expected_set (upper : Char → List Char) (raws : List (List Char)) (cfg : NormCfg)
    (min_len : Nat) : Finset (List Char) :=
  (((raws.map (fun r => normalize_token upper cfg (some r))).filter
      (fun s => decide (min_len ≤ s.length))).filter (fun s => s != [])).toFinset

/-- Set `found_set` of `app.py`: normalize every regex-extracted candidate token,
keep results of length at least `min_len`, deduplicate into a set. -/
def found_set (upper : Char → List Char) (tokens : List (List Char)) (cfg : NormCfg)
    (min_len : Nat) : Finset (List Char) :=
  ((tokens.map (fun c => normalize_token upper cfg (some c))).filter
      (fun s => decide (min_len ≤ s.length))).toFinset

/-- The fuzzy-suggestion step of `app.py`: guarded by
`enable_fuzzy and faltantes and found_set`, then one record
`(serial_faltante, posible_en_documento, distancia)` per fuzzy candidate of
every missing item, with the configured `max_distance` and `top_k`. -/
def posibles (enable_fuzzy : Bool) (faltantesL poolL : List (List Char))
    (max_distance top_k : Nat) : List (List Char × List Char × Nat) :=
  if enable_fuzzy = true ∧ faltantesL ≠ [] ∧ poolL ≠ [] then
    faltantesL.flatMap (fun miss =>
      (fuzzy_match_candidates (some miss) poolL max_distance top_k).map
        (fun cd => (miss, cd.1, cd.2)))
  else []

/-- Character class of the built-in default pattern
`[A-Za-z0-9\-_/\.]` (ASCII letters, digits, `-`, `_`, `/`, `.`). -/
def isSerialChar (c : Char) : Bool :=
  (65 ≤ c.toNat && c.toNat ≤ 90) || (97 ≤ c.toNat && c.toNat ≤ 122) ||
    (48 ≤ c.toNat && c.toNat ≤ 57) || c == '-' || c == '_' || c == '/' || c == '.'

/-- Maximal runs of characters satisfying `p`, in left-to-right order. -/
def runsOf (p : Char → Bool) : List Char → List (List Char)
  | [] => []
  | c :: cs =>
    if p c then (c :: cs.takeWhile p) :: runsOf p (cs.dropWhile p)
    else runsOf p cs
termination_by l => l.length
decreasing_by
  · simp only [List.length_cons]
    exact Nat.lt_succ_of_le (List.Sublist.length_le (List.dropWhile_sublist _))
  · simp

/-- Matches (`findall`) of the default pattern `[A-Za-z0-9\-_/\.]{6,}`: the greedy
repetition of a character class matches exactly the maximal runs of that
class having length at least 6, left to right and non-overlapping. -/
def defaultFindall (text : List Char) : List (List Char) :=
  (runsOf isSerialChar text).filter (fun r => decide (6 ≤ r.length))

/-- Model of the regex collaborator used by `extract_tokens_by_regex`:
`compile` either fails (as `re.compile` does on a malformed pattern, raising
`re.error`) or yields a `findall` function from text to the list of
non-overlapping matches. -/
structure ReEngine where
  compile : List Char → Option (List Char → List (List Char))

/-- Embedding of `extract_tokens_by_regex` from `serial_utils.py`:
empty (or non-string) text yields `[]`; otherwise the user pattern is
compiled, falling back to the default pattern on compile failure, and the
matches are returned.  Note the return value is only the token list. -/
def extract_tokens_by_regex (eng : ReEngine) (text : List Char) (pattern : List Char) :
    List (List Char) :=
  if text = [] then []
  else
    match eng.compile pattern with
    | some rgx => rgx text
    | none => defaultFindall text

/-- Modelled from the spec: the tokenizer variant described in section 4.2,
which in addition to the token list "returns a flag indicating the fallback
was used" when the supplied pattern does not compile.  This variant is not
present in `serial_utils.py`; it is stated here only to compare with the
code's `extract_tokens_by_regex`. -/
def extractTokens_spec (eng : ReEngine) (text : List Char) (pattern : List Char) :
    List (List Char) × Bool :=
  match eng.compile pattern with
  | some rgx => (if text = [] then [] else rgx text, false)
  | none => (if text = [] then [] else defaultFindall text, true)

/-- The source text of the default pattern, `r"[A-Za-z0-9\-_/\.]{6,}"`. -/
def defaultPattern : List Char := "[A-Za-z0-9\\-_/\\.]\x7b6,\x7d".toList

/-- A concrete fragment of the regex collaborator, used to instantiate the
tokenizer theorems: it compiles the default pattern (to its `findall`) and
fails on the malformed pattern `"("` exactly as `re.compile` does. -/
def modelRe : ReEngine where
  compile p := if p = defaultPattern then some defaultFindall else none

theorem _lev_nil_left (b : List Char) : _lev [] b = b.length := by
  rw [_lev_eq_levRec, levRec_nil_left]

/-- C1: within one run the reconciliation derives `encontrados = E ∩ F`,
`faltantes = E − F` and `extras_doc = F − E` from the same two sets built by
normalization and deduplication, and these satisfy
`found ∪ missing = ExpectedSet` and `found ∩ missing = ∅`. -/
theorem c1_partition (upper : Char → List Char) (raws tokens : List (List Char))
    (cfg : NormCfg) (min_len : Nat) :
    encontrados (expected_set upper raws cfg min_len) (found_set upper tokens cfg min_len) =
        expected_set upper raws cfg min_len ∩ found_set upper tokens cfg min_len ∧
      faltantes (expected_set upper raws cfg min_len) (found_set upper tokens cfg min_len) =
        expected_set upper raws cfg min_len \ found_set upper tokens cfg min_len ∧
      extras_doc (expected_set upper raws cfg min_len) (found_set upper tokens cfg min_len) =
        found_set upper tokens cfg min_len \ expected_set upper raws cfg min_len ∧
      encontrados (expected_set upper raws cfg min_len) (found_set upper tokens cfg min_len) ∪
          faltantes (expected_set upper raws cfg min_len) (found_set upper tokens cfg min_len) =
        expected_set upper raws cfg min_len ∧
      encontrados (expected_set upper raws cfg min_len) (found_set upper tokens cfg min_len) ∩
          faltantes (expected_set upper raws cfg min_len) (found_set upper tokens cfg min_len) = ∅ := by
  refine ⟨rfl, rfl, rfl, ?_, ?_⟩
  · ext x
    simp [encontrados, faltantes]
    tauto
  · ext x
    simp [encontrados, faltantes]

/-- C2: `_lev a b` is the minimum number of single-character insertions,
deletions or substitutions transforming `a` into `b` (an edit chain of that
length exists, and no shorter chain does); in particular
`_lev "" b = len b`. -/
theorem c2_lev_min_edits (a b : List Char) :
    Chain a b (_lev a b) ∧ (∀ n : Nat, Chain a b n → _lev a b ≤ n) ∧
      _lev [] b = b.length := by
  simp only [_lev_eq_levRec]
  exact ⟨chain_of_levRec a b, fun n h => levRec_le_of_chain h, levRec_nil_left b⟩

theorem c2_lev_min_edits_witness :
    _lev ['A', 'B'] ['B'] ≤ 1 ∧ _lev [] ['A', 'B', 'C'] = 3 :=
  ⟨(c2_lev_min_edits ['A', 'B'] ['B']).2.1 1
      (Chain.step (EditStep.delete_head 'A' ['B']) (Chain.refl ['B'])),
    (c2_lev_min_edits [] ['A', 'B', 'C']).2.2⟩

/-- C3: `_lev` is a metric: symmetric, zero exactly on equal strings, and
satisfying the triangle inequality. -/
theorem c3_lev_metric (a b c : List Char) :
    _lev a b = _lev b a ∧ (_lev a b = 0 ↔ a = b) ∧ _lev a b ≤ _lev a c + _lev c b := by
  simp only [_lev_eq_levRec]
  exact ⟨levRec_symm a b, levRec_eq_zero_iff a b, levRec_triangle a b c⟩

/-- C4: `normalize_token` is idempotent for every configuration of the five
toggles and every string.  The uppercase mapping is runtime data of the
Python implementation; the hypothesis is its Unicode case-stability (every
character it outputs is mapped to itself), the property that makes
`str.upper()` itself idempotent. -/
theorem c4_normalize_idem (upper : Char → List Char)
    (hfix : ∀ c d, d ∈ upper c → upper d = [d]) (cfg : NormCfg) (s : List Char) :
    normalize_token upper cfg (some (normalize_token upper cfg (some s))) =
      normalize_token upper cfg (some s) :=
  normalize_token_idem_aux upper hfix cfg s

theorem c4_normalize_idem_witness :
    normalize_token modelUpper {} (some (normalize_token modelUpper {}
        (some ['é', 'ß', '-', 'a']))) =
      normalize_token modelUpper {} (some ['é', 'ß', '-', 'a']) :=
  c4_normalize_idem modelUpper modelUpper_fix {} ['é', 'ß', '-', 'a']

/-- C9: `normalize_token` is total (it is a Lean function), maps a missing or
empty raw value to the empty string, and leaves non-ASCII characters
unchanged aside from case folding: the whole case-folded image of every
non-ASCII input character (the character itself when `do_upper` is off)
survives into the output, because the strip steps only remove five ASCII
characters.  The hypothesis states that the uppercase mapping preserves the
five-separator class exactly, which holds of the Unicode mapping. -/
theorem c9_normalize_total (upper : Char → List Char)
    (hsep : ∀ c d, d ∈ upper c → isStripChar d = isStripChar c)
    (cfg : NormCfg) (s : List Char) (c : Char) :
    normalize_token upper cfg none = [] ∧ normalize_token upper cfg (some []) = [] ∧
      (c ∈ s → 127 < c.toNat →
        ∀ d ∈ (if cfg.do_upper = true then upper c else [c]),
          d ∈ normalize_token upper cfg (some s)) :=
  ⟨rfl, normalize_token_some_nil upper cfg,
    fun hc hna => normalize_token_nonascii upper hsep cfg s c hc hna⟩

theorem c9_normalize_total_witness :
    'É' ∈ normalize_token modelUpper {} (some ['é']) :=
  (c9_normalize_total modelUpper modelUpper_sep {} ['é'] 'é').2.2 (by decide) (by decide)
    'É' (by decide)

/-- C10: a `None` target behaves exactly like the empty-string target: the
call does not fail, the result coincides with the empty-target result, and
each candidate `c` is scored with distance `len c`. -/
theorem c10_none_target (candidates : List (List Char)) (maxd k : Nat) :
    fuzzy_match_candidates none candidates maxd k =
        fuzzy_match_candidates (some []) candidates maxd k ∧
      fuzzy_out [] candidates maxd =
        (candidates.map (fun c => (c, c.length))).filter
          (fun p => decide (p.2 ≤ maxd)) := by
  constructor
  · rfl
  · unfold fuzzy_out
    simp [_lev_nil_left]

/-- C5: the fuzzy matcher returns at most `top_k` scored candidates, all with
distance at most `max_distance`, sorted non-decreasingly by distance; the
stable sort keeps ties in candidate iteration order (for every distance `d`
the entries with that distance appear exactly as in the unsorted `out` list);
an empty candidate pool, or one with no qualifying candidate, yields `[]`. -/
theorem c5_fuzzy_contract (target : Option (List Char)) (candidates : List (List Char))
    (max_distance top_k : Nat) (htop : 1 ≤ top_k) :
    (fuzzy_match_candidates target candidates max_distance top_k).length ≤ top_k ∧
      (∀ p ∈ fuzzy_match_candidates target candidates max_distance top_k,
        p.2 ≤ max_distance) ∧
      List.Sorted leDist (fuzzy_match_candidates target candidates max_distance top_k) ∧
      fuzzy_match_candidates target candidates max_distance top_k =
        (fuzzy_sorted (orEmpty target) candidates max_distance).take top_k ∧
      (∀ d : Nat,
        (fuzzy_sorted (orEmpty target) candidates max_distance).filter
            (fun p => p.2 == d) =
          (fuzzy_out (orEmpty target) candidates max_distance).filter
            (fun p => p.2 == d)) ∧
      (candidates = [] →
        fuzzy_match_candidates target candidates max_distance top_k = []) ∧
      ((∀ c ∈ candidates, max_distance < _lev (orEmpty target) c) →
        fuzzy_match_candidates target candidates max_distance top_k = []) := by
  refine ⟨?_, ?_, ?_, rfl, ?_, ?_, ?_⟩
  · simp [fuzzy_match_candidates, List.length_take]
  · intro p hp
    have h1 : p ∈ fuzzy_sorted (orEmpty target) candidates max_distance :=
      List.take_subset _ _ hp
    have h2 : p ∈ fuzzy_out (orEmpty target) candidates max_distance :=
      (List.perm_insertionSort leDist _).mem_iff.mp h1
    have h3 := List.mem_filter.mp h2
    exact of_decide_eq_true h3.2
  · unfold fuzzy_match_candidates
    exact List.Pairwise.sublist (List.take_sublist _ _)
      (List.sorted_insertionSort leDist _)
  · intro d
    exact filter_insertionSort_eq d _
  · intro h
    subst h
    simp [fuzzy_match_candidates, fuzzy_sorted, fuzzy_out]
  · intro h
    have hout : fuzzy_out (orEmpty target) candidates max_distance = [] := by
      unfold fuzzy_out
      apply List.filter_eq_nil_iff.mpr
      intro p hp
      obtain ⟨c, hc, rfl⟩ := List.mem_map.mp hp
      have := h c hc
      simp
      omega
    unfold fuzzy_match_candidates fuzzy_sorted
    rw [hout]
    simp

theorem c5_fuzzy_contract_witness :
    (fuzzy_match_candidates (some ['A']) [['A'], ['B', 'C']] 1 3).length ≤ 3 ∧
      (fuzzy_match_candidates (some ['A']) ([] : List (List Char)) 1 3 = []) :=
  ⟨(c5_fuzzy_contract (some ['A']) [['A'], ['B', 'C']] 1 3 (by decide)).1,
    (c5_fuzzy_contract (some ['A']) [] 1 3 (by decide)).2.2.2.2.2.1 rfl⟩

/-- C6: the suggestion loop calls `fuzzy_match_candidates` for each missing
item against the pool `list(found_set)` with the configured `max_distance`
and `top_k`, and that pool is exactly `encontrados ∪ extras_doc` (every
normalized token occurring in the document). -/
theorem c6_pool (E F : Finset (List Char)) (poolL faltL : List (List Char))
    (max_distance top_k : Nat) (hpool : poolL.toFinset = F)
    (h1 : faltL ≠ []) (h2 : poolL ≠ []) :
    poolL.toFinset = encontrados E F ∪ extras_doc E F ∧
      posibles true faltL poolL max_distance top_k =
        faltL.flatMap (fun miss =>
          (fuzzy_match_candidates (some miss) poolL max_distance top_k).map
            (fun cd => (miss, cd.1, cd.2))) := by
  constructor
  · rw [hpool]
    ext x
    simp [encontrados, extras_doc]
    tauto
  · simp [posibles, h1, h2]

theorem c6_pool_witness :
    ([['B']] : List (List Char)).toFinset =
      encontrados {['A']} {['B']} ∪ extras_doc {['A']} {['B']} :=
  (c6_pool {['A']} {['B']} [['B']] [['A']] 1 3 (by simp) (by simp) (by simp)).1

/-- C7 counterexample: `extract_tokens_by_regex` returns only the token list;
its output on the invalid pattern `"("` coincides with the output of a run
whose pattern compiled (the default pattern), so no fallback flag reaches the
caller, while the spec-modelled tokenizer distinguishes those two runs by its
flag component. -/
theorem c7_no_flag_counterexample :
    extract_tokens_by_regex modelRe "serial ABC123XYZ ok".toList ['('] =
        extract_tokens_by_regex modelRe "serial ABC123XYZ ok".toList defaultPattern ∧
      (extractTokens_spec modelRe "serial ABC123XYZ ok".toList ['(']).2 ≠
        (extractTokens_spec modelRe "serial ABC123XYZ ok".toList defaultPattern).2 := by
  constructor
  · rfl
  · decide

/-- C7 amended: when the supplied pattern fails to compile, the tokenizer
substitutes the built-in default pattern and extraction still succeeds (it
returns the default-pattern matches, `[]` on empty text), but the fallback is
silent: the result is only the token-list component of the spec-modelled
tokenizer, whose flag is `true` on such runs. -/
theorem c7_fallback (eng : ReEngine) (text pattern : List Char)
    (h : eng.compile pattern = none) :
    extract_tokens_by_regex eng text pattern =
        (if text = [] then [] else defaultFindall text) ∧
      extract_tokens_by_regex eng text pattern = (extractTokens_spec eng text pattern).1 ∧
      (extractTokens_spec eng text pattern).2 = true := by
  unfold extract_tokens_by_regex extractTokens_spec
  rw [h]
  by_cases ht : text = [] <;> simp [ht]

theorem c7_fallback_witness :
    extract_tokens_by_regex modelRe "serial ABC123XYZ ok".toList ['('] =
        (if "serial ABC123XYZ ok".toList = ([] : List Char) then []
          else defaultFindall "serial ABC123XYZ ok".toList) ∧
      extract_tokens_by_regex modelRe "serial ABC123XYZ ok".toList ['('] =
        (extractTokens_spec modelRe "serial ABC123XYZ ok".toList ['(']).1 ∧
      (extractTokens_spec modelRe "serial ABC123XYZ ok".toList ['(']).2 = true :=
  c7_fallback modelRe "serial ABC123XYZ ok".toList ['('] rfl

/-- A list of 201 distinct missing items; the 201st (index 200) is `"Z00001"`, at
distance 1 from the only pool token `"Z00000"`. -/
def missDemo : List (List Char) :=
  (List.range 200).map (fun i => 'M' :: Nat.toDigits 10 i) ++ [['Z', '0', '0', '0', '0', '1']]

/-- One-token document pool for the cap counterexample. -/
def poolDemo : List (List Char) := [['Z', '0', '0', '0', '0', '0']]

/-- C8 counterexample: with 201 missing items the suggestion loop still
produces the record of the 201st item, which any fixed 200-item prefix cap
would drop — the code processes every missing item, it does not cap at 200. -/
theorem c8_no_cap_counterexample :
    (⟨['Z', '0', '0', '0', '0', '1'], ['Z', '0', '0', '0', '0', '0'], 1⟩ :
        List Char × List Char × Nat) ∈ posibles true missDemo poolDemo 1 3 ∧
      (⟨['Z', '0', '0', '0', '0', '1'], ['Z', '0', '0', '0', '0', '0'], 1⟩ :
          List Char × List Char × Nat) ∉ posibles true (missDemo.take 200) poolDemo 1 3 := by
  constructor
  · decide
  · decide

/-- C8 amended: the fuzzy-suggestion step of the engine applies no cap to the
missing list: whenever the loop runs, every missing item is processed and each
of its fuzzy candidates yields a record in the output. -/
theorem c8_all_missing_processed (faltL poolL : List (List Char))
    (max_distance top_k : Nat) (m : List Char) (hm : m ∈ faltL) (h2 : poolL ≠ [])
    (cd : List Char × Nat)
    (hcd : cd ∈ fuzzy_match_candidates (some m) poolL max_distance top_k) :
    (m, cd.1, cd.2) ∈ posibles true faltL poolL max_distance top_k := by
  have h1 : faltL ≠ [] := by
    intro e
    subst e
    simp at hm
  unfold posibles
  rw [if_pos ⟨rfl, h1, h2⟩]
  exact List.mem_flatMap.mpr ⟨m, hm, List.mem_map.mpr ⟨cd, hcd, rfl⟩⟩

theorem c8_all_missing_processed_witness :
    ((['Z', '0', '0', '0', '0', '1'], ['Z', '0', '0', '0', '0', '0'], 1) :
        List Char × List Char × Nat) ∈
      posibles true [['Z', '0', '0', '0', '0', '1']] poolDemo 1 3 :=
  c8_all_missing_processed [['Z', '0', '0', '0', '0', '1']] poolDemo 1 3
    ['Z', '0', '0', '0', '0', '1'] (by decide) (by decide)
    (['Z', '0', '0', '0', '0', '0'], 1) (by decide)
